import Mathlib

/-!
Verification of the retro-ide native backend (src-tauri/src/lib.rs).

The backend exposes project-state commands (get_current_project,
open_project_dialog, load_last_project, close_project) and filesystem
commands (read_directory, read_file_contents, write_file_contents,
read_file_binary).

Modelling choices (shallow embedding):
* The filesystem is a tree `FsNode` (a file with `String` contents, or a
  directory with an ordered association list of named children); the order
  of a directory's child list models the enumeration order of
  `fs::read_dir`.  Paths are lists of components; `pathComponents` converts
  the `String` paths of the project-state commands, mirroring
  `std::path::Path` component parsing (empty and `.` segments dropped).
* The Tauri plumbing (AppHandle, settings store, folder-picker dialog) is a
  `World` record: whether `app.store` succeeds, the value stored under
  `LAST_PROJECT_KEY`, whether `store.save` would succeed (its result is
  discarded by the source via `let _ = store.save()`), and the filesystem.
* Rust's `sort_by` is a stable sort driven by a comparator returning an
  `Ordering`; we model it with Mathlib's stable `List.insertionSort` on the
  relation "comparator does not return `Greater`".  Two stable sorts with
  the same total-preorder comparator produce identical output, so this is
  extensionally the source's sort.
* Rust `str::to_lowercase` is modelled by `String.toLower`, and the
  byte-lexicographic `Ord` on Rust `String` by Lean's lexicographic
  `String` order (UTF-8 byte order agrees with code-point order).
* The `Mutex` around `ProjectState` only serialises access; commands are
  modelled sequentially, acting on the guarded `ProjectState` value.
-/

namespace RetroIde

/-- The `ProjectState` struct of lib.rs lines 13-17: optional path and
optional display name, both `None` by default. -/
structure ProjectState where
  path : Option String
  name : Option String
deriving DecidableEq, Repr

/-- The `Default` instance derived in the source: both fields `None`. -/
def ProjectState.default : ProjectState := ⟨none, none⟩

/-- A filesystem node: a regular file with text contents, or a directory
with an ordered list of named children (the list order models the
enumeration order of `fs::read_dir`). -/
inductive FsNode where
  | file (contents : String)
  | dir (children : List (String × FsNode))

/-- Whether a node is a directory (`Path::is_dir` on an existing path). -/
def FsNode.isDir : FsNode → Bool
  | .file _ => false
  | .dir _ => true

/-- Resolve a component path in the tree; `none` models a path that does
not exist.  `Path::exists` is `(FsNode.lookup p fs).isSome`. -/
def FsNode.lookup : List String → FsNode → Option FsNode
  | [], n => some n
  | _ :: _, .file _ => none
  | c :: rest, .dir cs =>
    match List.lookup c cs with
    | some n => FsNode.lookup rest n
    | none => none

/-- Split a string at every slash, mirroring how `std::path::Path` cuts a
Unix path into segments. -/
def splitSlash : List Char → List (List Char)
  | [] => [[]]
  | c :: cs =>
    match splitSlash cs with
    | [] => [[]]
    | g :: gs => if c = '/' then [] :: g :: gs else (c :: g) :: gs

/-- The normal components of a string path: slash-separated segments with
empty and current-dir (`.`) segments dropped, as `Path::components`
normalises them. -/
def pathComponents (s : String) : List String :=
  ((splitSlash s.toList).map fun cs => String.mk cs).filter fun c => c != "" && c != "."

/-- The `Path::file_name` of a component path: its last component, unless
that component is the parent-dir segment `..` (or there is none). -/
def componentFileName (p : List String) : Option String :=
  match p.getLast? with
  | some c => if c = ".." then none else some c
  | none => none

/-- The `Path::file_name` of a string path (lib.rs lines 42-45 and 77-80
call this on the picked/persisted path). -/
def pathFileName (s : String) : Option String :=
  componentFileName (pathComponents s)

/-- Whether a string path exists in the filesystem (`Path::exists`,
lib.rs line 76). -/
def pathExists (fs : FsNode) (s : String) : Bool :=
  (FsNode.lookup (pathComponents s) fs).isSome

/-- A JSON value read from the settings store under `LAST_PROJECT_KEY`:
either a string or some non-string value (the source only inspects it
through `Value::as_str`, lib.rs line 74). -/
inductive StoreVal where
  | str (s : String)
  | nonStr
deriving DecidableEq, Repr

/-- The `Value::as_str` view of a stored value. -/
def StoreVal.asStr : StoreVal → Option String
  | .str s => some s
  | .nonStr => none

/-- The environment a project-state command runs in: whether `app.store`
succeeds (`if let Ok(store) = app.store(STORE_FILE)`), the current value
under `LAST_PROJECT_KEY`, whether `store.save()` would succeed (the source
discards this result with `let _ =`), and the filesystem used for the
`Path::exists` check of `load_last_project`. -/
structure World where
  storeOk : Bool
  storeVal : Option StoreVal
  saveOk : Bool
  fs : FsNode

/-- lib.rs lines 23-26: `get_current_project` returns a clone of the
in-memory state and never fails. -/
def get_current_project (st : ProjectState) : ProjectState := st

/-- lib.rs lines 28-65: `open_project_dialog`.  `dialog` is the folder the
user picked (`none` models a cancelled dialog).  On a pick, the display
name is the path's final segment, falling back to the whole path string;
the path is persisted best-effort (nothing is persisted when `app.store`
fails, and the result of `store.save()` is discarded, so `saveOk` is
ignored); the in-memory state is overwritten; the new state is returned. -/
def open_project_dialog (dialog : Option String) (w : World) (st : ProjectState) :
    Except String (Option ProjectState) × ProjectState × World :=
  match dialog with
  | some path_str =>
    let name := (pathFileName path_str).getD path_str
    let project : ProjectState := ⟨some path_str, some name⟩
    let w' := if w.storeOk then { w with storeVal := some (.str path_str) } else w
    (Except.ok (some project), project, w')
  | none => (Except.ok none, st, w)

/-- lib.rs lines 67-94: `load_last_project`.  Reads the persisted value; if
the store opens, the value is present, it is a string, and that path still
exists, the state is rehydrated exactly as `open` would build it and
installed; otherwise `Ok(None)` is returned and the in-memory state is left
as it was.  The store is never written. -/
def load_last_project (w : World) (st : ProjectState) :
    Except String (Option ProjectState) × ProjectState :=
  if w.storeOk then
    match w.storeVal with
    | some v =>
      match v.asStr with
      | some path_str =>
        if pathExists w.fs path_str then
          let name := (pathFileName path_str).getD path_str
          let project : ProjectState := ⟨some path_str, some name⟩
          (Except.ok (some project), project)
        else (Except.ok none, st)
      | none => (Except.ok none, st)
    | none => (Except.ok none, st)
  else (Except.ok none, st)

/-- lib.rs lines 96-107: `close_project`.  Best-effort deletes the
persisted key (nothing happens when `app.store` fails; the results of
`store.delete` and `store.save` are discarded), resets the in-memory state
to the default empty state, and always returns `Ok(())`. -/
def close_project (w : World) (_st : ProjectState) :
    Except String Unit × ProjectState × World :=
  let w' := if w.storeOk then { w with storeVal := none } else w
  (Except.ok (), ProjectState.default, w')

/-- Rust `str::starts_with('.')`: whether the first character of a name is
a dot (lib.rs line 139). -/
def startsWithDot (s : String) : Bool :=
  match s.toList with
  | [] => false
  | c :: _ => c == '.'

/-- The `FileEntry` struct of lib.rs lines 109-115.  `path` is kept as a
component path (the source stores the joined path string); `children` is
always `none` from `read_directory` (loaded on demand by the frontend). -/
structure FileEntry where
  name : String
  path : List String
  is_dir : Bool
  children : Option (List FileEntry)

/-- Rust `str::to_lowercase` applied to a name, as the character list it
compares by (`Char.toLower` lowercases exactly the ASCII uppercase range;
UTF-8 byte order agrees with code-point order, so comparing the character
lists is Rust's `String::cmp`). -/
def lowerKey (s : String) : List Char := s.toList.map Char.toLower

/-- Rust `str::to_lowercase` as a string-to-string function (used on the
extension in lib.rs line 219). -/
def lowerStr (s : String) : String := String.mk (lowerKey s)

/-- Lexicographic strict comparison of character lists, the order
underlying Rust's `String::cmp`. -/
def charListLt : List Char → List Char → Bool
  | _, [] => false
  | [], _ :: _ => true
  | a :: as, b :: bs =>
    if a < b then true
    else if b < a then false
    else charListLt as bs

/-- The comparator of lib.rs lines 154-158: directories sort before files,
and within a group the names compare lowercased (the if-chain is the
`compareOfLessAndEq` expansion of Rust's lexicographic `String::cmp` on the
lowercased names). -/
def entryCmp (a b : FileEntry) : Ordering :=
  match a.is_dir, b.is_dir with
  | true, false => Ordering.lt
  | false, true => Ordering.gt
  | _, _ =>
    if charListLt (lowerKey a.name) (lowerKey b.name) then Ordering.lt
    else if lowerKey a.name = lowerKey b.name then Ordering.eq
    else Ordering.gt

/-- The non-strict order induced by `entryCmp`: a sort driven by a
comparator places `a` no later than `b` exactly when the comparator does
not answer `Greater`. -/
def entryLE (a b : FileEntry) : Prop := entryCmp a b ≠ Ordering.gt

instance : DecidableRel entryLE := fun a b => by
  unfold entryLE; infer_instance

/-- The `entries.sort_by` call of lib.rs line 154: a stable sort under
`entryCmp`, modelled by stable insertion sort on `entryLE`. -/
def sortEntries (l : List FileEntry) : List FileEntry :=
  List.insertionSort entryLE l

/-- lib.rs lines 117-161: `read_directory`.  Fails when the path does not
exist or is not a directory; otherwise builds one `FileEntry` per child
whose name does not start with a dot (in enumeration order) and sorts them
with `entryCmp`. -/
def read_directory (fs : FsNode) (p : List String) : Except String (List FileEntry) :=
  match FsNode.lookup p fs with
  | none => Except.error "Path does not exist"
  | some (.file _) => Except.error "Path is not a directory"
  | some (.dir cs) =>
    Except.ok (sortEntries (cs.filterMap fun e =>
      if startsWithDot e.1 then none
      else some { name := e.1, path := p ++ [e.1], is_dir := e.2.isDir, children := none }))

/-- lib.rs lines 163-176: `read_file_contents`.  Fails when the path does
not exist or is not a regular file; otherwise returns the contents (the
model's contents are already text, so the UTF-8 check of `read_to_string`
always passes). -/
def read_file_contents (fs : FsNode) (p : List String) : Except String String :=
  match FsNode.lookup p fs with
  | none => Except.error "File does not exist"
  | some (.dir _) => Except.error "Path is not a file"
  | some (.file contents) => Except.ok contents

/-- Replace the value stored under key `c` in an association list, keeping
the list order. -/
def replaceChild (cs : List (String × FsNode)) (c : String) (v : FsNode) :
    List (String × FsNode) :=
  cs.map fun e => bif e.1 == c then (e.1, v) else e

/-- Set child `c` to a file with the given contents: overwrite an existing
entry in place, or append a new one. -/
def setChildFile (cs : List (String × FsNode)) (c : String) (contents : String) :
    List (String × FsNode) :=
  match List.lookup c cs with
  | some _ => replaceChild cs c (.file contents)
  | none => cs ++ [(c, .file contents)]

/-- `std::fs::create_dir_all`: create every missing directory along the
path; succeeds when the full path already exists as a directory, fails when
any existing node along the way is a regular file. -/
def create_dir_all : FsNode → List String → Except String FsNode
  | .file _, _ => Except.error "Not a directory"
  | .dir cs, [] => Except.ok (.dir cs)
  | .dir cs, c :: rest =>
    match List.lookup c cs with
    | some n => do
      let n' ← create_dir_all n rest
      Except.ok (.dir (replaceChild cs c n'))
    | none => do
      let n' ← create_dir_all (.dir []) rest
      Except.ok (.dir (cs ++ [(c, n')]))

/-- `std::fs::write`: create or truncate-and-overwrite the file at the
path.  Fails when the path names a directory, when an intermediate
component is a file, or when the parent directory does not exist. -/
def fs_write : FsNode → List String → String → Except String FsNode
  | _, [], _ => Except.error "Is a directory"
  | .file _, _ :: _, _ => Except.error "Not a directory"
  | .dir cs, [c], contents =>
    match List.lookup c cs with
    | some (.dir _) => Except.error "Is a directory"
    | _ => Except.ok (.dir (setChildFile cs c contents))
  | .dir cs, c :: c2 :: rest, contents =>
    match List.lookup c cs with
    | none => Except.error "No such file or directory"
    | some n => do
      let n' ← fs_write n (c2 :: rest) contents
      Except.ok (.dir (replaceChild cs c n'))

/-- lib.rs lines 178-190: `write_file_contents`.  When the parent path does
not exist, first create the whole missing directory chain (propagating its
error), then write the file. -/
def write_file_contents (fs : FsNode) (p : List String) (contents : String) :
    Except String FsNode :=
  let parent := p.dropLast
  (if (FsNode.lookup parent fs).isSome then Except.ok fs else create_dir_all fs parent) >>=
    fun fs1 => fs_write fs1 p contents

/-- The `FileData` struct of lib.rs lines 192-196: base64 data plus an
inferred MIME type. -/
structure FileData where
  data : String
  mime_type : String
deriving DecidableEq, Repr

/-- The standard base64 alphabet used by `base64::engine::general_purpose::STANDARD`. -/
def base64Chars : List Char :=
  "ABCDEFGHIJKLMNOPQRSTUVWXYZabcdefghijklmnopqrstuvwxyz0123456789+/".toList

/-- The base64 digit for a 6-bit value. -/
def base64Char (n : Nat) : Char := base64Chars.getD n 'A'

/-- Standard base64 with `=` padding over a list of byte values. -/
def base64EncodeList : List Nat → List Char
  | [] => []
  | [b1] => [base64Char (b1 / 4), base64Char (b1 % 4 * 16), '=', '=']
  | [b1, b2] =>
    [base64Char (b1 / 4), base64Char (b1 % 4 * 16 + b2 / 16), base64Char (b2 % 16 * 4), '=']
  | b1 :: b2 :: b3 :: rest =>
    base64Char (b1 / 4) :: base64Char (b1 % 4 * 16 + b2 / 16) ::
      base64Char (b2 % 16 * 4 + b3 / 64) :: base64Char (b3 % 64) :: base64EncodeList rest

/-- `STANDARD.encode` of the file's bytes (lib.rs line 213); the model's
file contents are text, so the bytes are its UTF-8 encoding. -/
def base64Encode (s : String) : String :=
  String.mk (base64EncodeList (s.toUTF8.toList.map fun b => b.toNat))

/-- Scan for the extension after the first character of a file name: the
portion after the last dot, when a dot occurs at position one or later. -/
def extGo : List Char → Option (List Char)
  | [] => none
  | c :: cs =>
    match extGo cs with
    | some e => some e
    | none => if c = '.' then some cs else none

/-- `Path::extension` on a file name: the portion after the last dot,
except that a name with no dot, or only a leading dot, has no extension. -/
def extensionOfName (name : String) : Option String :=
  match name.toList with
  | [] => none
  | _ :: cs => (extGo cs).map fun e => String.mk e

/-- The fixed extension-to-MIME table of lib.rs lines 216-231 (applied to
the already-lowercased extension). -/
def mimeFromExt : Option String → String
  | some "png" => "image/png"
  | some "jpg" | some "jpeg" => "image/jpeg"
  | some "gif" => "image/gif"
  | some "webp" => "image/webp"
  | some "bmp" => "image/bmp"
  | some "ico" => "image/x-icon"
  | some "svg" => "image/svg+xml"
  | _ => "application/octet-stream"

/-- lib.rs lines 198-234: `read_file_binary`.  Fails when the path does not
exist or is not a regular file; otherwise base64-encodes the bytes and
infers the MIME type from the lowercased extension of the file name. -/
def read_file_binary (fs : FsNode) (p : List String) : Except String FileData :=
  match FsNode.lookup p fs with
  | none => Except.error "File does not exist"
  | some (.dir _) => Except.error "Path is not a file"
  | some (.file contents) =>
    let ext := ((componentFileName p).bind extensionOfName).map lowerStr
    Except.ok { data := base64Encode contents, mime_type := mimeFromExt ext }

/-- The project states reachable through the command surface, starting from
the empty state installed by `tauri::Builder::manage` (lib.rs line 243).
`get_current_project` returns the state unchanged, so it adds no
transition. -/
inductive Reachable : ProjectState → Prop
  | init : Reachable ProjectState.default
  | openDlg (dialog : Option String) (w : World) {st : ProjectState} :
      Reachable st → Reachable (open_project_dialog dialog w st).2.1
  | loadLast (w : World) {st : ProjectState} :
      Reachable st → Reachable (load_last_project w st).2
  | close (w : World) {st : ProjectState} :
      Reachable st → Reachable (close_project w st).2.1

/-- The directory of the worked example in the spec: children `zeta` (a
directory), `Alpha.txt`, `beta.txt`, plus a hidden `.git` entry. -/
def exampleDir : FsNode :=
  .dir [("beta.txt", .file "b"), (".git", .dir []), ("zeta", .dir []), ("Alpha.txt", .file "a")]

/-!  Theorems.  Each claim of the specification is settled below; helper
lemmas come with the claim that first needs them. -/

/-- Inversion for a successful `Except` bind. -/
theorem except_bind_ok {α β : Type} {x : Except String α} {f : α → Except String β} {b : β}
    (h : x >>= f = Except.ok b) : ∃ a, x = Except.ok a ∧ f a = Except.ok b := by
  cases x with
  | error e => simp [Bind.bind, Except.bind] at h
  | ok a => exact ⟨a, rfl, by simpa [Bind.bind, Except.bind] using h⟩

/-- C2: opening a selected folder path returns `Ok(Some(project))` with the
display name taken from the final path segment (falling back to the whole
path string), overwrites the in-memory state with that project, and a
subsequent `get_current_project` returns it; the world `w` ranges over all
settings-store behaviours, including `storeOk = false` and
`saveOk = false`, so a persistence failure never fails the operation; in
particular opening `/x/y/Project` yields path `/x/y/Project` and name
`Project`. -/
theorem open_project_dialog_opens (path_str : String) (w : World) (st : ProjectState) :
    (open_project_dialog (some path_str) w st).1 =
      Except.ok (some ⟨some path_str, some ((pathFileName path_str).getD path_str)⟩) ∧
    (open_project_dialog (some path_str) w st).2.1 =
      ⟨some path_str, some ((pathFileName path_str).getD path_str)⟩ ∧
    get_current_project (open_project_dialog (some path_str) w st).2.1 =
      ⟨some path_str, some ((pathFileName path_str).getD path_str)⟩ ∧
    get_current_project (open_project_dialog (some "/x/y/Project") w st).2.1 =
      ⟨some "/x/y/Project", some "Project"⟩ :=
  ⟨rfl, rfl, rfl, rfl⟩

/-- C3: when the persisted key is absent, or holds a string path that does
not exist in the filesystem, `load_last_project` returns `Ok(None)` and the
in-memory state is returned unchanged. -/
theorem load_last_project_leaves_state (w : World) (st : ProjectState)
    (h : w.storeVal = none ∨
      ∃ p, w.storeVal = some (.str p) ∧ pathExists w.fs p = false) :
    load_last_project w st = (Except.ok none, st) := by
  by_cases hs : w.storeOk = true
  · rcases h with h | ⟨p, hv, hex⟩
    · simp [load_last_project, hs, h]
    · simp [load_last_project, hs, hv, StoreVal.asStr, hex]
  · simp [load_last_project, hs]

/-- Witness for C3: a store whose persisted path points at a directory that
is gone returns nothing and leaves a concrete open project untouched. -/
theorem load_last_project_leaves_state_witness :
    load_last_project ⟨true, some (.str "/gone"), true, .dir []⟩ ⟨some "/a", some "a"⟩ =
      (Except.ok none, ⟨some "/a", some "a"⟩) :=
  load_last_project_leaves_state _ _ (Or.inr ⟨"/gone", rfl, rfl⟩)

/-- C4: `close_project` always returns `Ok(())`, resets the in-memory state
to the empty default (so `get_current_project` then returns the empty
state), a following `load_last_project` on the resulting world returns
nothing, and when the store is available the persisted key is deleted. -/
theorem close_project_resets (w : World) (st : ProjectState) :
    (close_project w st).1 = Except.ok () ∧
    (close_project w st).2.1 = ProjectState.default ∧
    get_current_project (close_project w st).2.1 = ProjectState.default ∧
    load_last_project (close_project w st).2.2 (close_project w st).2.1 =
      (Except.ok none, ProjectState.default) ∧
    (w.storeOk = true → (close_project w st).2.2.storeVal = none) := by
  refine ⟨rfl, rfl, rfl, ?_, ?_⟩
  · by_cases hs : w.storeOk = true <;>
      simp [close_project, load_last_project, hs]
  · intro hs
    simp [close_project, hs]

/-- Witness for C4: with an available store holding a persisted path,
closing deletes the key. -/
theorem close_project_resets_witness :
    (close_project ⟨true, some (.str "/a"), true, .dir []⟩ ⟨some "/a", some "a"⟩).2.2.storeVal
      = none :=
  (close_project_resets _ _).2.2.2.2 rfl

/-- C5: every project state reachable through the command surface from the
initial empty state has its `path` and `name` fields simultaneously present
or simultaneously absent. -/
theorem reachable_path_iff_name {st : ProjectState} (h : Reachable st) :
    st.path.isSome = st.name.isSome := by
  induction h with
  | init => rfl
  | openDlg dialog w _ ih =>
    cases dialog with
    | none => simpa [open_project_dialog] using ih
    | some s => simp [open_project_dialog]
  | loadLast w _ ih =>
    by_cases hs : w.storeOk = true
    · cases hv : w.storeVal with
      | none => simpa [load_last_project, hs, hv] using ih
      | some v =>
        cases v with
        | nonStr => simpa [load_last_project, hs, hv, StoreVal.asStr] using ih
        | str s =>
          by_cases hex : pathExists w.fs s = true
          · simp [load_last_project, hs, hv, StoreVal.asStr, hex]
          · simpa [load_last_project, hs, hv, StoreVal.asStr, hex] using ih
    · simpa [load_last_project, hs] using ih
  | close w _ => simp [close_project, ProjectState.default]

/-- Witness for C5: the initial empty state satisfies the invariant. -/
theorem reachable_path_iff_name_witness :
    ProjectState.default.path.isSome = ProjectState.default.name.isSome :=
  reachable_path_iff_name Reachable.init

/-- C7: `read_directory` fails with the not-found error on a path that does
not resolve, fails with the not-a-directory error on a path that resolves
to a regular file, and succeeds only when the path resolves to a
directory. -/
theorem read_directory_error_cases (fs : FsNode) (p : List String) :
    (FsNode.lookup p fs = none → read_directory fs p = Except.error "Path does not exist") ∧
    (∀ c, FsNode.lookup p fs = some (.file c) →
      read_directory fs p = Except.error "Path is not a directory") ∧
    (∀ l, read_directory fs p = Except.ok l → ∃ cs, FsNode.lookup p fs = some (.dir cs)) := by
  refine ⟨fun h => by simp [read_directory, h],
          fun c h => by simp [read_directory, h],
          fun l h => ?_⟩
  unfold read_directory at h
  cases hl : FsNode.lookup p fs with
  | none => rw [hl] at h; simp at h
  | some n =>
    cases n with
    | file c => rw [hl] at h; simp at h
    | dir cs => exact ⟨cs, rfl⟩

/-- Witness for C7: a missing path yields the not-found error and a file
path yields the not-a-directory error on concrete filesystems. -/
theorem read_directory_error_cases_witness :
    read_directory (.dir []) ["gone"] = Except.error "Path does not exist" ∧
    read_directory (.dir [("f.txt", .file "x")]) ["f.txt"] =
      Except.error "Path is not a directory" :=
  ⟨(read_directory_error_cases (.dir []) ["gone"]).1 rfl,
   (read_directory_error_cases (.dir [("f.txt", .file "x")]) ["f.txt"]).2.1 "x" rfl⟩

/-- C8: the MIME type returned by `read_file_binary` is computed purely
from the lowercased extension of the file name — independent of the file's
contents and of the rest of the filesystem — through the fixed table
png to image/png, jpg and jpeg to image/jpeg, gif to image/gif, webp to
image/webp, bmp to image/bmp, ico to image/x-icon, svg to image/svg+xml,
and anything else (including a missing extension) to
application/octet-stream. -/
theorem read_file_binary_mime_table :
    (∀ fs1 fs2 p c1 c2 d1 d2,
      FsNode.lookup p fs1 = some (.file c1) → FsNode.lookup p fs2 = some (.file c2) →
      read_file_binary fs1 p = Except.ok d1 → read_file_binary fs2 p = Except.ok d2 →
      d1.mime_type = d2.mime_type) ∧
    (∀ fs p c d, FsNode.lookup p fs = some (.file c) → read_file_binary fs p = Except.ok d →
      d.mime_type = mimeFromExt (((componentFileName p).bind extensionOfName).map lowerStr)) ∧
    mimeFromExt (some "png") = "image/png" ∧
    mimeFromExt (some "jpg") = "image/jpeg" ∧
    mimeFromExt (some "jpeg") = "image/jpeg" ∧
    mimeFromExt (some "gif") = "image/gif" ∧
    mimeFromExt (some "webp") = "image/webp" ∧
    mimeFromExt (some "bmp") = "image/bmp" ∧
    mimeFromExt (some "ico") = "image/x-icon" ∧
    mimeFromExt (some "svg") = "image/svg+xml" ∧
    (∀ e, e ∉ ["png", "jpg", "jpeg", "gif", "webp", "bmp", "ico", "svg"] →
      mimeFromExt (some e) = "application/octet-stream") ∧
    mimeFromExt none = "application/octet-stream" := by
  have hmime : ∀ fs p c d, FsNode.lookup p fs = some (.file c) →
      read_file_binary fs p = Except.ok d →
      d.mime_type = mimeFromExt (((componentFileName p).bind extensionOfName).map lowerStr) := by
    intro fs p c d hl hr
    unfold read_file_binary at hr
    rw [hl] at hr
    simp only [Except.ok.injEq] at hr
    rw [← hr]
  refine ⟨?_, hmime, rfl, rfl, rfl, rfl, rfl, rfl, rfl, rfl, ?_, rfl⟩
  · intro fs1 fs2 p c1 c2 d1 d2 h1 h2 hr1 hr2
    rw [hmime fs1 p c1 d1 h1 hr1, hmime fs2 p c2 d2 h2 hr2]
  · intro e he
    simp only [List.mem_cons, not_or] at he
    obtain ⟨h1, h2, h3, h4, h5, h6, h7, h8, -⟩ := he
    simp [mimeFromExt, h1, h2, h3, h4, h5, h6, h7, h8]

/-- Witness for C8: a file named `icon.PNG` (mixed-case extension) yields
`image/png`, `data.bin` yields `application/octet-stream`, and `bin` is
outside the table. -/
theorem read_file_binary_mime_table_witness :
    mimeFromExt (some "bin") = "application/octet-stream" ∧
    (read_file_binary (.dir [("icon.PNG", .file "bytes")]) ["icon.PNG"]).map
      (fun d => d.mime_type) = Except.ok "image/png" ∧
    (read_file_binary (.dir [("data.bin", .file "bytes")]) ["data.bin"]).map
      (fun d => d.mime_type) = Except.ok "application/octet-stream" :=
  ⟨read_file_binary_mime_table.2.2.2.2.2.2.2.2.2.2.1 "bin" (by decide), rfl, rfl⟩

/-- Looking up the replaced key finds the new value (when the key was
present at all). -/
theorem lookup_replaceChild_self (c : String) (v : FsNode) :
    ∀ cs : List (String × FsNode),
      List.lookup c (replaceChild cs c v) = (List.lookup c cs).map fun _ => v
  | [] => rfl
  | (k, n) :: es => by
    by_cases h : k = c
    · subst h
      simp [replaceChild, List.lookup]
    · have hb : (k == c) = false := by simpa using h
      have hb' : (c == k) = false := by simpa using Ne.symm h
      simp only [replaceChild, List.map, List.lookup, hb, hb', Bool.cond_false]
      exact lookup_replaceChild_self c v es

/-- Appending a binding for an absent key makes it found. -/
theorem lookup_append_self (c : String) (v : FsNode) :
    ∀ cs : List (String × FsNode), List.lookup c cs = none →
      List.lookup c (cs ++ [(c, v)]) = some v
  | [], _ => by simp [List.lookup]
  | (k, n) :: es, h => by
    by_cases hk : c = k
    · subst hk
      simp [List.lookup] at h
    · have hb : (c == k) = false := by simpa using hk
      simp only [List.lookup, hb, List.cons_append] at h ⊢
      exact lookup_append_self c v es h

/-- After `setChildFile`, the written child is a file with the new
contents. -/
theorem lookup_setChildFile (c : String) (s : String) (cs : List (String × FsNode)) :
    List.lookup c (setChildFile cs c s) = some (.file s) := by
  unfold setChildFile
  cases h : List.lookup c cs with
  | some n => simp [lookup_replaceChild_self, h]
  | none => exact lookup_append_self c _ cs h

/-- A successful `fs_write` leaves a file with the written contents at the
written path. -/
theorem fs_write_lookup : ∀ (p : List String) (fs fs' : FsNode) (s : String),
    fs_write fs p s = Except.ok fs' → FsNode.lookup p fs' = some (.file s)
  | [], fs, fs', s, h => by simp [fs_write] at h
  | [c], .file cc, fs', s, h => by simp [fs_write] at h
  | [c], .dir cs, fs', s, h => by
    unfold fs_write at h
    cases hl : List.lookup c cs with
    | none =>
      rw [hl] at h
      simp only [Except.ok.injEq] at h
      rw [← h]
      simp [FsNode.lookup, lookup_setChildFile]
    | some n =>
      rw [hl] at h
      cases n with
      | dir ds => simp at h
      | file cc =>
        simp only [Except.ok.injEq] at h
        rw [← h]
        simp [FsNode.lookup, lookup_setChildFile]
  | c :: c2 :: rest, .file cc, fs', s, h => by simp [fs_write] at h
  | c :: c2 :: rest, .dir cs, fs', s, h => by
    unfold fs_write at h
    cases hl : List.lookup c cs with
    | none => rw [hl] at h; simp at h
    | some n =>
      rw [hl] at h
      obtain ⟨n', hn', hfs'⟩ := except_bind_ok h
      simp only [Except.ok.injEq] at hfs'
      rw [← hfs']
      have ih := fs_write_lookup (c2 :: rest) n n' s hn'
      simp [FsNode.lookup, lookup_replaceChild_self, hl, ih]

/-- A successful `write_file_contents` leaves a file with the written
contents at the written path. -/
theorem write_file_contents_lookup (fs : FsNode) (p : List String) (s : String) (fs' : FsNode)
    (h : write_file_contents fs p s = Except.ok fs') :
    FsNode.lookup p fs' = some (.file s) := by
  unfold write_file_contents at h
  obtain ⟨fs1, _, hw⟩ := except_bind_ok h
  exact fs_write_lookup p fs1 fs' s hw

/-- C6: a successful `write_file_contents` followed by
`read_file_contents` on the same path returns exactly the written
contents. -/
theorem write_read_roundtrip (fs : FsNode) (p : List String) (s : String) (fs' : FsNode)
    (h : write_file_contents fs p s = Except.ok fs') :
    read_file_contents fs' p = Except.ok s := by
  have hl := write_file_contents_lookup fs p s fs' h
  simp [read_file_contents, hl]

/-- Witness for C6: writing `hello` to `a/b/f.txt` in an empty root and
reading it back returns `hello`. -/
theorem write_read_roundtrip_witness :
    read_file_contents
      (.dir [("a", .dir [("b", .dir [("f.txt", .file "hello")])])]) ["a", "b", "f.txt"] =
      Except.ok "hello" :=
  write_read_roundtrip (.dir []) ["a", "b", "f.txt"] "hello" _ rfl

/-- Creating a directory chain inside an empty directory always succeeds,
the created path ends in an empty directory, and every step of the chain is
a directory. -/
theorem create_dir_all_fresh : ∀ q : List String,
    ∃ n', create_dir_all (.dir []) q = Except.ok n' ∧
      FsNode.lookup q n' = some (.dir []) ∧
      ∀ pre rest, pre ++ rest = q → ∃ ds, FsNode.lookup pre n' = some (.dir ds)
  | [] =>
    ⟨.dir [], rfl, rfl, by
      intro pre rest h
      obtain ⟨rfl, rfl⟩ := List.append_eq_nil.mp h
      exact ⟨[], rfl⟩⟩
  | c :: rest0 => by
    obtain ⟨n', h1, h2, h3⟩ := create_dir_all_fresh rest0
    refine ⟨.dir [(c, n')], ?_, ?_, ?_⟩
    · unfold create_dir_all
      simp [List.lookup, h1, Bind.bind, Except.bind]
    · simp [FsNode.lookup, List.lookup, h2]
    · intro pre rest h
      cases pre with
      | nil => exact ⟨[(c, n')], rfl⟩
      | cons c' pre' =>
        simp only [List.cons_append, List.cons.injEq] at h
        obtain ⟨rfl, h⟩ := h
        simpa [FsNode.lookup, List.lookup] using h3 pre' rest h

/-- When no existing node along the requested chain is a regular file,
`create_dir_all` succeeds; a previously missing target becomes an empty
directory, and every step of the chain is a directory afterwards. -/
theorem create_dir_all_spec : ∀ (q : List String) (fs : FsNode),
    (∀ pre rest cc, pre ++ rest = q → FsNode.lookup pre fs ≠ some (.file cc)) →
    ∃ fs1, create_dir_all fs q = Except.ok fs1 ∧
      (FsNode.lookup q fs = none → FsNode.lookup q fs1 = some (.dir [])) ∧
      ∀ pre rest, pre ++ rest = q → ∃ ds, FsNode.lookup pre fs1 = some (.dir ds)
  | [], fs, hnf => by
    cases fs with
    | file cc => exact absurd rfl (hnf [] [] cc rfl)
    | dir cs =>
      refine ⟨.dir cs, rfl, by simp [FsNode.lookup], ?_⟩
      intro pre rest h
      obtain ⟨rfl, rfl⟩ := List.append_eq_nil.mp h
      exact ⟨cs, rfl⟩
  | c :: rest0, fs, hnf => by
    cases fs with
    | file cc => exact absurd rfl (hnf [] (c :: rest0) cc rfl)
    | dir cs =>
      cases hl : List.lookup c cs with
      | some n =>
        have hnf' : ∀ pre rest cc, pre ++ rest = rest0 →
            FsNode.lookup pre n ≠ some (.file cc) := by
          intro pre rest cc h
          have := hnf (c :: pre) rest cc (by simp [h])
          simpa [FsNode.lookup, hl] using this
        obtain ⟨n1, hc1, hc2, hc3⟩ := create_dir_all_spec rest0 n hnf'
        refine ⟨.dir (replaceChild cs c n1), ?_, ?_, ?_⟩
        · unfold create_dir_all
          simp [hl, hc1, Bind.bind, Except.bind]
        · intro habs
          have habs' : FsNode.lookup rest0 n = none := by
            simpa [FsNode.lookup, hl] using habs
          have := hc2 habs'
          simp [FsNode.lookup, lookup_replaceChild_self, hl, this]
        · intro pre rest h
          cases pre with
          | nil => exact ⟨replaceChild cs c n1, rfl⟩
          | cons c' pre' =>
            simp only [List.cons_append, List.cons.injEq] at h
            obtain ⟨rfl, h⟩ := h
            have := hc3 pre' rest h
            simpa [FsNode.lookup, lookup_replaceChild_self, hl] using this
      | none =>
        obtain ⟨n', h1, h2, h3⟩ := create_dir_all_fresh rest0
        refine ⟨.dir (cs ++ [(c, n')]), ?_, ?_, ?_⟩
        · unfold create_dir_all
          simp [hl, h1, Bind.bind, Except.bind]
        · intro _
          simp [FsNode.lookup, lookup_append_self c n' cs hl, h2]
        · intro pre rest h
          cases pre with
          | nil => exact ⟨cs ++ [(c, n')], rfl⟩
          | cons c' pre' =>
            simp only [List.cons_append, List.cons.injEq] at h
            obtain ⟨rfl, h⟩ := h
            have := h3 pre' rest h
            simpa [FsNode.lookup, lookup_append_self _ n' cs hl] using this

/-- Unfolding `write_file_contents` to its bind shape. -/
theorem write_file_contents_eq (fs : FsNode) (p : List String) (s : String) :
    write_file_contents fs p s =
      (if (FsNode.lookup p.dropLast fs).isSome then Except.ok fs
       else create_dir_all fs p.dropLast) >>= fun fs1 => fs_write fs1 p s := rfl

/-- Unfolding `fs_write` one directory level down a path of length at least
two, when the next component resolves. -/
theorem fs_write_cons_some (cs0 : List (String × FsNode)) (c : String) (n : FsNode)
    (t : List String) (s : String) (hl : List.lookup c cs0 = some n) (ht : t ≠ []) :
    fs_write (.dir cs0) (c :: t) s =
      fs_write n t s >>= fun n' => Except.ok (.dir (replaceChild cs0 c n')) := by
  cases t with
  | nil => exact absurd rfl ht
  | cons c2 r2 =>
    conv_lhs => unfold fs_write
    rw [hl]

/-- Unfolding `fs_write` one directory level down a path of length at least
two, when the next component is missing. -/
theorem fs_write_cons_none (cs0 : List (String × FsNode)) (c : String)
    (t : List String) (s : String) (hl : List.lookup c cs0 = none) (ht : t ≠ []) :
    fs_write (.dir cs0) (c :: t) s = Except.error "No such file or directory" := by
  cases t with
  | nil => exact absurd rfl ht
  | cons c2 r2 =>
    unfold fs_write
    rw [hl]

/-- `fs_write` succeeds whenever the parent path resolves to a directory
whose entry for the file name is not a subdirectory. -/
theorem fs_write_succeeds : ∀ (parent : List String) (fs : FsNode) (name s : String)
    (cs : List (String × FsNode)),
    FsNode.lookup parent fs = some (.dir cs) →
    (∀ ds, List.lookup name cs ≠ some (.dir ds)) →
    ∃ fs', fs_write fs (parent ++ [name]) s = Except.ok fs'
  | [], fs, name, s, cs, hp, hnd => by
    cases fs with
    | file cc => simp [FsNode.lookup] at hp
    | dir cs0 =>
      have hcs : cs0 = cs := by simpa [FsNode.lookup] using hp
      subst hcs
      cases hl : List.lookup name cs0 with
      | none =>
        refine ⟨.dir (setChildFile cs0 name s), ?_⟩
        simp only [List.nil_append]
        unfold fs_write
        rw [hl]
      | some n =>
        cases n with
        | file cc =>
          refine ⟨.dir (setChildFile cs0 name s), ?_⟩
          simp only [List.nil_append]
          unfold fs_write
          rw [hl]
        | dir ds => exact absurd hl (hnd ds)
  | c :: restp, fs, name, s, cs, hp, hnd => by
    cases fs with
    | file cc => simp [FsNode.lookup] at hp
    | dir cs0 =>
      cases hl : List.lookup c cs0 with
      | none => simp [FsNode.lookup, hl] at hp
      | some n =>
        have hp' : FsNode.lookup restp n = some (.dir cs) := by
          simpa [FsNode.lookup, hl] using hp
        obtain ⟨n', hw⟩ := fs_write_succeeds restp n name s cs hp' hnd
        refine ⟨.dir (replaceChild cs0 c n'), ?_⟩
        rw [List.cons_append, fs_write_cons_some cs0 c n (restp ++ [name]) s hl (by simp), hw]
        rfl

/-- A successful `fs_write` keeps every strictly shorter path that was a
directory a directory. -/
theorem fs_write_preserves_dirs : ∀ (q : List String) (fs fs' : FsNode) (s : String),
    fs_write fs q s = Except.ok fs' →
    ∀ pre rest, pre ++ rest = q → rest ≠ [] →
    ∀ ds, FsNode.lookup pre fs = some (.dir ds) →
    ∃ ds', FsNode.lookup pre fs' = some (.dir ds')
  | [], fs, fs', s, h => by simp [fs_write] at h
  | c :: t, .file cc, fs', s, h => by simp [fs_write] at h
  | c :: t, .dir cs0, fs', s, h => by
    intro pre rest hsplit hne ds hdir
    cases t with
    | nil =>
      cases pre with
      | nil =>
        unfold fs_write at h
        cases hl : List.lookup c cs0 with
        | none =>
          rw [hl] at h
          simp only [Except.ok.injEq] at h
          exact ⟨_, by rw [← h]; rfl⟩
        | some n =>
          rw [hl] at h
          cases n with
          | dir dds => simp at h
          | file fc =>
            simp only [Except.ok.injEq] at h
            exact ⟨_, by rw [← h]; rfl⟩
      | cons c' pre' =>
        simp only [List.cons_append, List.cons.injEq] at hsplit
        obtain ⟨rfl, hsplit⟩ := hsplit
        have : pre' = [] ∧ rest = [] := by
          cases pre' with
          | nil => exact ⟨rfl, hsplit⟩
          | cons a b => simp at hsplit
        exact absurd this.2 hne
    | cons c2 r2 =>
      cases hl : List.lookup c cs0 with
      | none => rw [fs_write_cons_none cs0 c (c2 :: r2) s hl (by simp)] at h; simp at h
      | some n =>
        rw [fs_write_cons_some cs0 c n (c2 :: r2) s hl (by simp)] at h
        obtain ⟨n', hn', hfs'⟩ := except_bind_ok h
        simp only [Except.ok.injEq] at hfs'
        cases pre with
        | nil => exact ⟨_, by rw [← hfs']; rfl⟩
        | cons c' pre' =>
          simp only [List.cons_append, List.cons.injEq] at hsplit
          obtain ⟨rfl, hsplit⟩ := hsplit
          have hdir' : FsNode.lookup pre' n = some (.dir ds) := by
            simpa [FsNode.lookup, hl] using hdir
          obtain ⟨ds', hds'⟩ :=
            fs_write_preserves_dirs (c2 :: r2) n n' s hn' pre' rest hsplit hne ds hdir'
          refine ⟨ds', ?_⟩
          rw [← hfs']
          simpa [FsNode.lookup, lookup_replaceChild_self, hl] using hds'

/-- C9: when the parent of the written path does not exist and no existing
node along the parent chain is a regular file (the filesystem permits the
creation), `write_file_contents` succeeds, every step of the parent chain
is a directory afterwards, and the written contents can be read back. -/
theorem write_creates_missing_parents (fs : FsNode) (p : List String) (s : String)
    (hparent : FsNode.lookup p.dropLast fs = none)
    (hnofile : ∀ pre rest cc, pre ++ rest = p.dropLast → FsNode.lookup pre fs ≠ some (.file cc)) :
    ∃ fs', write_file_contents fs p s = Except.ok fs' ∧
      (∀ pre rest, pre ++ rest = p.dropLast → ∃ ds, FsNode.lookup pre fs' = some (.dir ds)) ∧
      read_file_contents fs' p = Except.ok s := by
  have hpne : p ≠ [] := by
    intro hp
    rw [hp] at hparent
    simp [FsNode.lookup] at hparent
  obtain ⟨fs1, hc, habs, hpre1⟩ := create_dir_all_spec p.dropLast fs hnofile
  have hq : FsNode.lookup p.dropLast fs1 = some (.dir []) := habs hparent
  have hsp : p.dropLast ++ [p.getLast hpne] = p := List.dropLast_append_getLast hpne
  obtain ⟨fs', hw⟩ := fs_write_succeeds p.dropLast fs1 (p.getLast hpne) s [] hq
    (by intro ds h; simp [List.lookup] at h)
  rw [hsp] at hw
  have hwrite : write_file_contents fs p s = Except.ok fs' := by
    rw [write_file_contents_eq, hparent]
    simpa [Bind.bind, Except.bind, hc] using hw
  refine ⟨fs', hwrite, ?_, ?_⟩
  · intro pre rest h
    obtain ⟨ds, hds⟩ := hpre1 pre rest h
    exact fs_write_preserves_dirs p fs1 fs' s hw pre (rest ++ [p.getLast hpne])
      (by rw [← List.append_assoc, h, hsp]) (by simp) ds hds
  · have hl := fs_write_lookup p fs1 fs' s hw
    simp [read_file_contents, hl]

/-- Witness for C9: writing to `a/b/f.txt` in an empty root creates the
directories `a` and `a/b` and the written contents read back. -/
theorem write_creates_missing_parents_witness :
    ∃ fs', write_file_contents (.dir []) ["a", "b", "f.txt"] "hi" = Except.ok fs' ∧
      (∀ pre rest, pre ++ rest = ["a", "b"] → ∃ ds, FsNode.lookup pre fs' = some (.dir ds)) ∧
      read_file_contents fs' ["a", "b", "f.txt"] = Except.ok "hi" :=
  write_creates_missing_parents (.dir []) ["a", "b", "f.txt"] "hi" rfl
    (by
      intro pre rest cc _ hl
      cases pre <;> simp [FsNode.lookup, List.lookup] at hl)

/-- Strict lexicographic comparison is irreflexive. -/
theorem charListLt_irrefl : ∀ l : List Char, charListLt l l = false
  | [] => rfl
  | c :: cs => by simp [charListLt, charListLt_irrefl cs]

/-- Strict lexicographic comparison is transitive. -/
theorem charListLt_trans : ∀ (a b c : List Char),
    charListLt a b = true → charListLt b c = true → charListLt a c = true
  | _, _, [] => fun _ hbc => by simp [charListLt] at hbc
  | _, [], _ :: _ => fun hab _ => by simp [charListLt] at hab
  | [], _ :: _, _ :: _ => fun _ _ => by simp [charListLt]
  | x :: xs, y :: ys, z :: zs => fun hab hbc => by
    have hab' : x < y ∨ (x = y ∧ charListLt xs ys = true) := by
      by_cases h1 : x < y
      · exact Or.inl h1
      · by_cases h2 : y < x
        · simp [charListLt, h1, h2] at hab
        · exact Or.inr ⟨le_antisymm (not_lt.mp h2) (not_lt.mp h1), by
            simpa [charListLt, h1, h2] using hab⟩
    have hbc' : y < z ∨ (y = z ∧ charListLt ys zs = true) := by
      by_cases h1 : y < z
      · exact Or.inl h1
      · by_cases h2 : z < y
        · simp [charListLt, h1, h2] at hbc
        · exact Or.inr ⟨le_antisymm (not_lt.mp h2) (not_lt.mp h1), by
            simpa [charListLt, h1, h2] using hbc⟩
    rcases hab' with h | ⟨rfl, hr1⟩
    · rcases hbc' with h' | ⟨rfl, hr2⟩
      · simp [charListLt, lt_trans h h']
      · simp [charListLt, h]
    · rcases hbc' with h' | ⟨rfl, hr2⟩
      · simp [charListLt, h']
      · simp [charListLt, lt_irrefl, charListLt_trans xs ys zs hr1 hr2]

/-- Lists that are not strictly below each other are equal (connectedness
of the lexicographic order). -/
theorem charListLt_conn : ∀ (a b : List Char),
    charListLt a b = false → charListLt b a = false → a = b
  | [], [], _, _ => rfl
  | [], _ :: _, h, _ => by simp [charListLt] at h
  | _ :: _, [], _, h => by simp [charListLt] at h
  | x :: xs, y :: ys, h1, h2 => by
    by_cases hxy : x < y
    · simp [charListLt, hxy] at h1
    · by_cases hyx : y < x
      · simp [charListLt, hyx] at h2
      · have hx : x = y := le_antisymm (not_lt.mp hyx) (not_lt.mp hxy)
        subst hx
        have r1 : charListLt xs ys = false := by simpa [charListLt, hxy] using h1
        have r2 : charListLt ys xs = false := by simpa [charListLt, hxy] using h2
        rw [charListLt_conn xs ys r1 r2]

/-- Strict lexicographic comparison is asymmetric. -/
theorem charListLt_asymm {a b : List Char} (h : charListLt a b = true) :
    charListLt b a = false := by
  cases hba : charListLt b a with
  | false => rfl
  | true =>
    exfalso
    have h2 := charListLt_trans a b a h hba
    rw [charListLt_irrefl] at h2
    exact Bool.false_ne_true h2

/-- The reflexive order induced by not being strictly above is
transitive. -/
theorem charListLt_false_trans (a b c : List Char)
    (h1 : charListLt b a = false) (h2 : charListLt c b = false) :
    charListLt c a = false := by
  cases hab : charListLt a b with
  | false =>
    rw [charListLt_conn a b hab h1]
    exact h2
  | true =>
    cases hca : charListLt c a with
    | false => rfl
    | true =>
      exfalso
      have h3 := charListLt_trans c a b hca hab
      rw [h2] at h3
      exact Bool.false_ne_true h3

/-- The comparator chain on lowercased names does not answer `Greater`
exactly when the right name is not strictly below the left one. -/
theorem cmp_chain_ne_gt (ka kb : List Char) :
    ((if charListLt ka kb then Ordering.lt
      else if ka = kb then Ordering.eq else Ordering.gt) ≠ Ordering.gt) ↔
      charListLt kb ka = false := by
  by_cases h1 : charListLt ka kb = true
  · simp [h1, charListLt_asymm h1]
  · by_cases h2 : ka = kb
    · subst h2
      simp [h1, charListLt_irrefl]
    · have h1' : charListLt ka kb = false := by simpa using h1
      cases h3 : charListLt kb ka with
      | true => simp [h1', h2, h3]
      | false => exact absurd (charListLt_conn ka kb h1' h3) h2

/-- Characterisation of the sort order: a directory goes before a file,
and inside a group the lowercased name of the left entry is not strictly
above the lowercased name of the right one. -/
theorem entryLE_iff (a b : FileEntry) :
    entryLE a b ↔ ((a.is_dir = true ∧ b.is_dir = false) ∨
      (a.is_dir = b.is_dir ∧ charListLt (lowerKey b.name) (lowerKey a.name) = false)) := by
  unfold entryLE entryCmp
  cases ha : a.is_dir <;> cases hb : b.is_dir
  · simpa using cmp_chain_ne_gt (lowerKey a.name) (lowerKey b.name)
  · simp
  · simp
  · simpa using cmp_chain_ne_gt (lowerKey a.name) (lowerKey b.name)

instance : IsTotal FileEntry entryLE :=
  ⟨fun a b => by
    rw [entryLE_iff, entryLE_iff]
    have key : charListLt (lowerKey b.name) (lowerKey a.name) = false ∨
        charListLt (lowerKey a.name) (lowerKey b.name) = false := by
      cases h : charListLt (lowerKey b.name) (lowerKey a.name) with
      | false => exact Or.inl rfl
      | true => exact Or.inr (charListLt_asymm h)
    rcases key with h | h <;> cases ha : a.is_dir <;> cases hb : b.is_dir <;> simp [h]⟩

instance : IsTrans FileEntry entryLE :=
  ⟨fun a b c hab hbc => by
    rw [entryLE_iff] at hab hbc ⊢
    rcases hab with ⟨ha1, hb1⟩ | ⟨he1, hl1⟩ <;> rcases hbc with ⟨hb2, hc2⟩ | ⟨he2, hl2⟩
    · rw [hb1] at hb2
      exact absurd hb2 (by simp)
    · exact Or.inl ⟨ha1, he2.symm.trans hb1⟩
    · exact Or.inl ⟨he1.trans hb2, hc2⟩
    · exact Or.inr ⟨he1.trans he2, charListLt_false_trans _ _ _ hl1 hl2⟩⟩

/-- Two entries below each other in the sort order have equal lowercased
names. -/
theorem entryLE_antisymm_key {a b : FileEntry} (hab : entryLE a b) (hba : entryLE b a) :
    lowerKey a.name = lowerKey b.name := by
  rw [entryLE_iff] at hab hba
  rcases hab with ⟨ha1, hb1⟩ | ⟨he1, hl1⟩
  · rcases hba with ⟨hb2, ha2⟩ | ⟨he2, hl2⟩
    · rw [hb1] at hb2
      exact absurd hb2 (by simp)
    · rw [ha1, hb1] at he2
      exact absurd he2 (by simp)
  · rcases hba with ⟨hb2, ha2⟩ | ⟨he2, hl2⟩
    · rw [he1, hb2] at ha2
      exact absurd ha2 (by simp)
    · exact charListLt_conn _ _ hl2 hl1

/-- Evaluating `read_directory` on a directory node: the non-dot children
in enumeration order, sorted. -/
theorem read_directory_ok (fs : FsNode) (p : List String) (cs : List (String × FsNode))
    (hdir : FsNode.lookup p fs = some (.dir cs)) :
    read_directory fs p = Except.ok (sortEntries (cs.filterMap fun e =>
      if startsWithDot e.1 then none
      else some { name := e.1, path := p ++ [e.1], is_dir := e.2.isDir, children := none })) := by
  unfold read_directory
  rw [hdir]

/-- C1: a successful `read_directory` of a directory with children `cs`
returns exactly the children whose name does not begin with a dot (no
dot-entry appears, and the output is a permutation of the non-dot
children), ordered with directories before files and, within a group, the
lowercased name of an earlier entry never strictly above that of a later
one (case-insensitive lexicographic order). -/
theorem read_directory_sorted (fs : FsNode) (p : List String)
    (cs : List (String × FsNode)) (l : List FileEntry)
    (hdir : FsNode.lookup p fs = some (.dir cs))
    (h : read_directory fs p = Except.ok l) :
    (∀ e ∈ l, startsWithDot e.name = false) ∧
    l.Perm (cs.filterMap fun e => if startsWithDot e.1 then none
      else some { name := e.1, path := p ++ [e.1], is_dir := e.2.isDir, children := none }) ∧
    l.Pairwise (fun a b => (a.is_dir = true ∧ b.is_dir = false) ∨
      (a.is_dir = b.is_dir ∧ charListLt (lowerKey b.name) (lowerKey a.name) = false)) := by
  rw [read_directory_ok fs p cs hdir] at h
  simp only [Except.ok.injEq] at h
  subst h
  refine ⟨?_, List.perm_insertionSort entryLE _, ?_⟩
  · intro e he
    have he' : e ∈ cs.filterMap fun e => if startsWithDot e.1 then none
        else some { name := e.1, path := p ++ [e.1], is_dir := e.2.isDir,
                    children := none } := by
      exact (List.mem_insertionSort entryLE).mp he
    obtain ⟨⟨nm, nd⟩, hmem, hsome⟩ := List.mem_filterMap.mp he'
    by_cases hdot : startsWithDot nm = true
    · simp [hdot] at hsome
    · rw [if_neg hdot] at hsome
      injection hsome with hsome
      rw [← hsome]
      simpa using hdot
  · have hs := List.sorted_insertionSort entryLE (cs.filterMap fun e =>
      if startsWithDot e.1 then none
      else some { name := e.1, path := p ++ [e.1], is_dir := e.2.isDir, children := none })
    exact hs.imp fun hab => (entryLE_iff _ _).mp hab

/-- Witness for C1: the spec's example — children `zeta` (directory),
`Alpha.txt`, `beta.txt` and a hidden `.git` — lists as
`zeta, Alpha.txt, beta.txt`, with no dot entry and the pairwise order. -/
theorem read_directory_sorted_witness :
    read_directory exampleDir [] = Except.ok [
      { name := "zeta", path := ["zeta"], is_dir := true, children := none },
      { name := "Alpha.txt", path := ["Alpha.txt"], is_dir := false, children := none },
      { name := "beta.txt", path := ["beta.txt"], is_dir := false, children := none }] ∧
    (∀ e ∈ [({ name := "zeta", path := ["zeta"], is_dir := true, children := none } : FileEntry),
      { name := "Alpha.txt", path := ["Alpha.txt"], is_dir := false, children := none },
      { name := "beta.txt", path := ["beta.txt"], is_dir := false, children := none }],
      startsWithDot e.name = false) ∧
    List.Pairwise (fun a b => (a.is_dir = true ∧ b.is_dir = false) ∨
      (a.is_dir = b.is_dir ∧ charListLt (lowerKey b.name) (lowerKey a.name) = false))
      [({ name := "zeta", path := ["zeta"], is_dir := true, children := none } : FileEntry),
       { name := "Alpha.txt", path := ["Alpha.txt"], is_dir := false, children := none },
       { name := "beta.txt", path := ["beta.txt"], is_dir := false, children := none }] :=
  ⟨rfl, (read_directory_sorted exampleDir [] _ _ rfl rfl).1,
    (read_directory_sorted exampleDir [] _ _ rfl rfl).2.2⟩

/-- C10: with the same set of immediate children offered in two different
enumeration orders, and the lowercased names of the visible (non-dot)
children pairwise distinct, `read_directory` returns the identical
listing. -/
theorem read_directory_enum_indep (fs1 fs2 : FsNode) (p : List String)
    (cs1 cs2 : List (String × FsNode))
    (h1 : FsNode.lookup p fs1 = some (.dir cs1))
    (h2 : FsNode.lookup p fs2 = some (.dir cs2))
    (hperm : cs1.Perm cs2)
    (hdistinct : (cs1.filterMap fun e => if startsWithDot e.1 then none
      else some (lowerKey e.1)).Pairwise (fun x y => x ≠ y)) :
    read_directory fs1 p = read_directory fs2 p := by
  rw [read_directory_ok fs1 p cs1 h1, read_directory_ok fs2 p cs2 h2]
  have hkeys : ∀ cs : List (String × FsNode),
      ((cs.filterMap fun e => if startsWithDot e.1 then none
        else some { name := e.1, path := p ++ [e.1], is_dir := e.2.isDir,
                    children := none : FileEntry }).map fun e => lowerKey e.name) =
      cs.filterMap fun e => if startsWithDot e.1 then none else some (lowerKey e.1) := by
    intro cs
    rw [List.map_filterMap]
    congr 1
    funext e
    by_cases hdot : startsWithDot e.1 = true <;> simp [hdot]
  have hpermX := hperm.filterMap fun e => if startsWithDot e.1 then none
    else some { name := e.1, path := p ++ [e.1], is_dir := e.2.isDir,
                children := none : FileEntry }
  have hpw1 : (cs1.filterMap fun e => if startsWithDot e.1 then none
      else some { name := e.1, path := p ++ [e.1], is_dir := e.2.isDir,
                  children := none : FileEntry }).Pairwise
      (fun a b => lowerKey a.name ≠ lowerKey b.name) := by
    have hd := hdistinct
    rw [← hkeys cs1] at hd
    exact List.pairwise_map.mp hd
  have hsym : ∀ {x y : FileEntry}, lowerKey x.name ≠ lowerKey y.name →
      lowerKey y.name ≠ lowerKey x.name := fun h => Ne.symm h
  have hpw2 := (hpermX.pairwise_iff hsym).mp hpw1
  have hs1a := List.sorted_insertionSort entryLE (cs1.filterMap fun e =>
    if startsWithDot e.1 then none
    else some { name := e.1, path := p ++ [e.1], is_dir := e.2.isDir, children := none })
  have hs2a := List.sorted_insertionSort entryLE (cs2.filterMap fun e =>
    if startsWithDot e.1 then none
    else some { name := e.1, path := p ++ [e.1], is_dir := e.2.isDir, children := none })
  have hs1b := ((List.perm_insertionSort entryLE _).pairwise_iff hsym).mpr hpw1
  have hs2b := ((List.perm_insertionSort entryLE _).pairwise_iff hsym).mpr hpw2
  have hanti : IsAntisymm FileEntry
      (fun a b => entryLE a b ∧ lowerKey a.name ≠ lowerKey b.name) :=
    ⟨fun a b hab hba => absurd (entryLE_antisymm_key hab.1 hba.1) hab.2⟩
  have hchain : List.Perm
      (List.insertionSort entryLE (cs1.filterMap fun e => if startsWithDot e.1 then none
        else some { name := e.1, path := p ++ [e.1], is_dir := e.2.isDir, children := none }))
      (List.insertionSort entryLE (cs2.filterMap fun e => if startsWithDot e.1 then none
        else some { name := e.1, path := p ++ [e.1], is_dir := e.2.isDir, children := none })) :=
    (List.perm_insertionSort entryLE _).trans
      (hpermX.trans (List.perm_insertionSort entryLE _).symm)
  have heq := @List.eq_of_perm_of_sorted FileEntry
    (fun a b => entryLE a b ∧ lowerKey a.name ≠ lowerKey b.name) hanti _ _
    hchain (hs1a.and hs1b) (hs2a.and hs2b)
  exact congrArg Except.ok heq

/-- Witness for C10: the same two visible children in swapped enumeration
orders produce the identical listing. -/
theorem read_directory_enum_indep_witness :
    read_directory (.dir [("b.txt", .file "1"), ("a.txt", .file "2")]) [] =
      read_directory (.dir [("a.txt", .file "2"), ("b.txt", .file "1")]) [] :=
  read_directory_enum_indep _ _ [] _ _ rfl rfl
    (List.Perm.swap ("a.txt", FsNode.file "2") ("b.txt", FsNode.file "1") [])
    (by decide)

end RetroIde
